import Mathlib

/-!
Verification of the S2 cell-identifier core of the S2shell repository.

The definitions below are a shallow embedding of the Rust sources:
  * src/s2/internal.rs       (Hilbert base tables)
  * src/s2/s2cell_id.rs      (lookup-table generator and S2CellId operations)
  * src/s2/mod.rs            (coordinate transform pipeline)
Machine integers (u64, i32) are modelled as Nat with explicit wrapping
(mod 2^64) exactly where the Rust code relies on wrapping arithmetic; the
fixed-size u16 lookup arrays are modelled as total maps Nat → Nat (every
array write performed by the generator is at an in-range index).
Fallible code (panics, failed checked conversions) is modelled with Option.
Definitions whose doc comment starts with "Modelled from the spec:" embed
functions whose bodies are absent from the sources (todo macros); they are
built from the design document instead.
-/

namespace S2

/-- SWAP_MASK from src/s2/internal.rs. -/
def SWAP_MASK : Nat := 0x01

/-- INVERT_MASK from src/s2/internal.rs. -/
def INVERT_MASK : Nat := 0x02

/-- POS_TO_IJ from src/s2/internal.rs: for an orientation and a position
along the Hilbert curve within a cell, the (i,j) offset of the child visited
at that position, packed as 2*i + j. Out-of-range arguments return 0
(the Rust arrays are only indexed in range). -/
def POS_TO_IJ (o p : Nat) : Nat :=
  if o = 0 then
    if p = 0 then 0 else if p = 1 then 1 else if p = 2 then 3 else if p = 3 then 2 else 0
  else if o = 1 then
    if p = 0 then 0 else if p = 1 then 2 else if p = 2 then 3 else if p = 3 then 1 else 0
  else if o = 2 then
    if p = 0 then 3 else if p = 1 then 2 else if p = 2 then 0 else if p = 3 then 1 else 0
  else if o = 3 then
    if p = 0 then 3 else if p = 1 then 1 else if p = 2 then 0 else if p = 3 then 2 else 0
  else 0

/-- POS_TO_ORIENTATION from src/s2/internal.rs. -/
def POS_TO_ORIENTATION (p : Nat) : Nat :=
  if p = 0 then SWAP_MASK
  else if p = 1 then 0
  else if p = 2 then 0
  else if p = 3 then INVERT_MASK + SWAP_MASK
  else 0

/-- LOOKUP_BITS from src/s2/s2cell_id.rs. -/
def LOOKUP_BITS : Nat := 4

/-- LOOKUP_TABLE_SIZE from src/s2/s2cell_id.rs (= 1024). -/
def LOOKUP_TABLE_SIZE : Nat := 1 <<< (2 * LOOKUP_BITS + 2)

/-- Write of one table slot (Rust array store, table modelled as a map). -/
def tabSet (t : Nat → Nat) (w v : Nat) : Nat → Nat :=
  fun x => if x = w then v else t x

/-- The recursive helper init_lookup_cell of init_lookup_tables in
src/s2/s2cell_id.rs. The Rust recursion stops when level == LOOKUP_BITS;
here fuel = LOOKUP_BITS - level drives structural recursion and level is
kept as in the source. The two mutable arrays are passed as a pair of maps,
threaded through the four recursive calls in source order. -/
def init_lookup_cell (fuel level i j orig_orientation pos orientation : Nat)
    (tabs : (Nat → Nat) × (Nat → Nat)) : (Nat → Nat) × (Nat → Nat) :=
  match fuel with
  | 0 =>
    let ij := (i <<< LOOKUP_BITS) + j
    (tabSet tabs.1 ((ij <<< 2) + orig_orientation) ((pos <<< 2) + orientation),
     tabSet tabs.2 ((pos <<< 2) + orig_orientation) ((ij <<< 2) + orientation))
  | f + 1 =>
    let level := level + 1
    let i := i <<< 1
    let j := j <<< 1
    let pos := pos <<< 2
    let r : Nat → Nat := POS_TO_IJ orientation
    let t0 := init_lookup_cell f level (i + (r 0 >>> 1)) (j + (r 0 &&& 1))
      orig_orientation pos (orientation ^^^ POS_TO_ORIENTATION 0) tabs
    let t1 := init_lookup_cell f level (i + (r 1 >>> 1)) (j + (r 1 &&& 1))
      orig_orientation (pos + 1) (orientation ^^^ POS_TO_ORIENTATION 1) t0
    let t2 := init_lookup_cell f level (i + (r 2 >>> 1)) (j + (r 2 &&& 1))
      orig_orientation (pos + 2) (orientation ^^^ POS_TO_ORIENTATION 2) t1
    let t3 := init_lookup_cell f level (i + (r 3 >>> 1)) (j + (r 3 &&& 1))
      orig_orientation (pos + 3) (orientation ^^^ POS_TO_ORIENTATION 3) t2
    t3

/-- init_lookup_tables from src/s2/s2cell_id.rs: starting from two zeroed
tables, invoke the generator once per each of the four starting
orientations. -/
def init_lookup_tables : (Nat → Nat) × (Nat → Nat) :=
  let e : Nat → Nat := fun _ => 0
  let t0 := init_lookup_cell LOOKUP_BITS 0 0 0 0 0 0 (e, e)
  let t1 := init_lookup_cell LOOKUP_BITS 0 0 0 SWAP_MASK 0 SWAP_MASK t0
  let t2 := init_lookup_cell LOOKUP_BITS 0 0 0 INVERT_MASK 0 INVERT_MASK t1
  let t3 := init_lookup_cell LOOKUP_BITS 0 0 0 (SWAP_MASK ||| INVERT_MASK) 0
    (SWAP_MASK ||| INVERT_MASK) t2
  t3

/-- LOOKUP_POS static table from src/s2/s2cell_id.rs. -/
def LOOKUP_POS : Nat → Nat := init_lookup_tables.1

/-- LOOKUP_IJ static table from src/s2/s2cell_id.rs. -/
def LOOKUP_IJ : Nat → Nat := init_lookup_tables.2

/-- Inverse of the POS_TO_IJ permutation in its second argument:
IJ_TO_POS o (POS_TO_IJ o p) = p for o, p < 4. Used by the closed-form
description of the generated tables. -/
def IJ_TO_POS (o d : Nat) : Nat :=
  if o = 0 then
    if d = 0 then 0 else if d = 1 then 1 else if d = 2 then 3 else if d = 3 then 2 else 0
  else if o = 1 then
    if d = 0 then 0 else if d = 1 then 3 else if d = 2 then 1 else if d = 3 then 2 else 0
  else if o = 2 then
    if d = 0 then 2 else if d = 1 then 3 else if d = 2 then 1 else if d = 3 then 0 else 0
  else if o = 3 then
    if d = 0 then 2 else if d = 1 then 1 else if d = 2 then 3 else if d = 3 then 0 else 0
  else 0

/-- Closed-form recursion computing the (i, j, final orientation) reached by
descending fuel levels of the Hilbert curve from orientation o along the
2-bit position pairs of pos (most significant pair first). -/
def ijOfPos : Nat → Nat → Nat → Nat × Nat × Nat
  | 0, o, _ => (0, 0, o)
  | n + 1, o, pos =>
    let p := pos / 4 ^ n
    let r := POS_TO_IJ o p
    let t := ijOfPos n (o ^^^ POS_TO_ORIENTATION p) (pos % 4 ^ n)
    ((r / 2) * 2 ^ n + t.1, (r % 2) * 2 ^ n + t.2.1, t.2.2)

/-- Closed-form recursion computing the (curve position, final orientation)
of the leaf with coordinates (i, j) (fuel bits each, most significant bit
first) starting from orientation o. -/
def posOfIJ : Nat → Nat → Nat → Nat → Nat × Nat
  | 0, o, _, _ => (0, o)
  | n + 1, o, i, j =>
    let d := 2 * (i / 2 ^ n) + j / 2 ^ n
    let p := IJ_TO_POS o d
    let t := posOfIJ n (o ^^^ POS_TO_ORIENTATION p) (i % 2 ^ n) (j % 2 ^ n)
    (p * 4 ^ n + t.1, t.2)

/-- Closed-form value of a LOOKUP_IJ entry with index below 1024. -/
def lookupIJFun (idx : Nat) : Nat :=
  let t := ijOfPos LOOKUP_BITS (idx % 4) (idx / 4)
  (t.1 * 16 + t.2.1) * 4 + t.2.2

/-- Closed-form value of a LOOKUP_POS entry with index below 1024. -/
def lookupPosFun (idx : Nat) : Nat :=
  let t := posOfIJ LOOKUP_BITS (idx % 4) (idx / 4 / 16) (idx / 4 % 16)
  t.1 * 4 + t.2

/-! Small finite facts about the base tables. -/

theorem pos_to_ij_lt (o p : Nat) : POS_TO_IJ o p < 4 := by
  unfold POS_TO_IJ
  split_ifs <;> norm_num

theorem pos_to_orientation_lt (p : Nat) : POS_TO_ORIENTATION p < 4 := by
  unfold POS_TO_ORIENTATION
  split_ifs <;> norm_num [SWAP_MASK, INVERT_MASK]

theorem ij_to_pos_lt (o d : Nat) : IJ_TO_POS o d < 4 := by
  unfold IJ_TO_POS
  split_ifs <;> norm_num

theorem pos_to_ij_ij_to_pos (o d : Nat) (ho : o < 4) (hd : d < 4) :
    POS_TO_IJ o (IJ_TO_POS o d) = d := by
  interval_cases o <;> interval_cases d <;> rfl

theorem ij_to_pos_pos_to_ij (o p : Nat) (ho : o < 4) (hp : p < 4) :
    IJ_TO_POS o (POS_TO_IJ o p) = p := by
  interval_cases o <;> interval_cases p <;> rfl

theorem pos_to_ij_ne (o c c' : Nat) (ho : o < 4) (hc : c < 4) (hc' : c' < 4)
    (h : c ≠ c') :
    POS_TO_IJ o c / 2 ≠ POS_TO_IJ o c' / 2 ∨
      POS_TO_IJ o c % 2 ≠ POS_TO_IJ o c' % 2 := by
  revert h
  interval_cases o <;> interval_cases c <;> interval_cases c' <;> decide

theorem xor_lt_four {a b : Nat} (ha : a < 4) (hb : b < 4) : a ^^^ b < 4 :=
  Nat.xor_lt_two_pow (n := 2) ha hb

/-! Bounds for the closed-form recursions. -/

theorem ijOfPos_fst_lt (f : Nat) : ∀ o pos, (ijOfPos f o pos).1 < 2 ^ f := by
  induction f with
  | zero => intro o pos; simp [ijOfPos]
  | succ f ih =>
    intro o pos
    simp only [ijOfPos]
    have h1 : POS_TO_IJ o (pos / 4 ^ f) / 2 ≤ 1 := by
      have := pos_to_ij_lt o (pos / 4 ^ f)
      omega
    have h2 := ih (o ^^^ POS_TO_ORIENTATION (pos / 4 ^ f)) (pos % 4 ^ f)
    have h3 : POS_TO_IJ o (pos / 4 ^ f) / 2 * 2 ^ f ≤ 1 * 2 ^ f :=
      Nat.mul_le_mul_right _ h1
    rw [pow_succ]
    omega

theorem ijOfPos_snd_lt (f : Nat) : ∀ o pos, (ijOfPos f o pos).2.1 < 2 ^ f := by
  induction f with
  | zero => intro o pos; simp [ijOfPos]
  | succ f ih =>
    intro o pos
    simp only [ijOfPos]
    have h1 : POS_TO_IJ o (pos / 4 ^ f) % 2 ≤ 1 := by omega
    have h2 := ih (o ^^^ POS_TO_ORIENTATION (pos / 4 ^ f)) (pos % 4 ^ f)
    have h3 : POS_TO_IJ o (pos / 4 ^ f) % 2 * 2 ^ f ≤ 1 * 2 ^ f :=
      Nat.mul_le_mul_right _ h1
    rw [pow_succ]
    omega

theorem ijOfPos_orient_lt (f : Nat) : ∀ o pos, o < 4 →
    (ijOfPos f o pos).2.2 < 4 := by
  induction f with
  | zero => intro o pos ho; simpa [ijOfPos] using ho
  | succ f ih =>
    intro o pos ho
    simp only [ijOfPos]
    exact ih _ _ (xor_lt_four ho (pos_to_orientation_lt _))

theorem posOfIJ_fst_lt (f : Nat) : ∀ o i j, (posOfIJ f o i j).1 < 4 ^ f := by
  induction f with
  | zero => intro o i j; simp [posOfIJ]
  | succ f ih =>
    intro o i j
    simp only [posOfIJ]
    have h1 : IJ_TO_POS o (2 * (i / 2 ^ f) + j / 2 ^ f) ≤ 3 := by
      have := ij_to_pos_lt o (2 * (i / 2 ^ f) + j / 2 ^ f)
      omega
    have h2 := ih (o ^^^ POS_TO_ORIENTATION (IJ_TO_POS o (2 * (i / 2 ^ f) + j / 2 ^ f)))
      (i % 2 ^ f) (j % 2 ^ f)
    have h3 : IJ_TO_POS o (2 * (i / 2 ^ f) + j / 2 ^ f) * 4 ^ f ≤ 3 * 4 ^ f :=
      Nat.mul_le_mul_right _ h1
    rw [pow_succ]
    omega

theorem posOfIJ_snd_lt (f : Nat) : ∀ o i j, o < 4 → (posOfIJ f o i j).2 < 4 := by
  induction f with
  | zero => intro o i j ho; simpa [posOfIJ] using ho
  | succ f ih =>
    intro o i j ho
    simp only [posOfIJ]
    exact ih _ _ _ (xor_lt_four ho (pos_to_orientation_lt _))

/-- Round trip of the closed forms: decoding the curve position of a leaf
recovers the leaf coordinates and the same final orientation. -/
theorem ijOfPos_posOfIJ (f : Nat) : ∀ o i j, o < 4 → i < 2 ^ f → j < 2 ^ f →
    ijOfPos f o (posOfIJ f o i j).1 = (i, j, (posOfIJ f o i j).2) := by
  induction f with
  | zero =>
    intro o i j ho hi hj
    interval_cases i
    interval_cases j
    simp [ijOfPos, posOfIJ]
  | succ f ih =>
    intro o i j ho hi hj
    have ha : i / 2 ^ f ≤ 1 := by
      have h2 : i / 2 ^ f < 2 := (Nat.div_lt_iff_lt_mul (by positivity)).mpr
        (by rw [pow_succ] at hi; omega)
      omega
    have hb : j / 2 ^ f ≤ 1 := by
      have h2 : j / 2 ^ f < 2 := (Nat.div_lt_iff_lt_mul (by positivity)).mpr
        (by rw [pow_succ] at hj; omega)
      omega
    have hd : 2 * (i / 2 ^ f) + j / 2 ^ f < 4 := by omega
    have hp : IJ_TO_POS o (2 * (i / 2 ^ f) + j / 2 ^ f) < 4 := ij_to_pos_lt _ _
    have ho' : o ^^^ POS_TO_ORIENTATION (IJ_TO_POS o (2 * (i / 2 ^ f) + j / 2 ^ f)) < 4 :=
      xor_lt_four ho (pos_to_orientation_lt _)
    have ht := posOfIJ_fst_lt f
      (o ^^^ POS_TO_ORIENTATION (IJ_TO_POS o (2 * (i / 2 ^ f) + j / 2 ^ f)))
      (i % 2 ^ f) (j % 2 ^ f)
    simp only [posOfIJ, ijOfPos]
    have hdiv : (IJ_TO_POS o (2 * (i / 2 ^ f) + j / 2 ^ f) * 4 ^ f +
        (posOfIJ f (o ^^^ POS_TO_ORIENTATION (IJ_TO_POS o (2 * (i / 2 ^ f) + j / 2 ^ f)))
          (i % 2 ^ f) (j % 2 ^ f)).1) / 4 ^ f =
        IJ_TO_POS o (2 * (i / 2 ^ f) + j / 2 ^ f) := by
      rw [Nat.add_comm, Nat.add_mul_div_right _ _ (by positivity), Nat.div_eq_of_lt ht,
        Nat.zero_add]
    have hmod : (IJ_TO_POS o (2 * (i / 2 ^ f) + j / 2 ^ f) * 4 ^ f +
        (posOfIJ f (o ^^^ POS_TO_ORIENTATION (IJ_TO_POS o (2 * (i / 2 ^ f) + j / 2 ^ f)))
          (i % 2 ^ f) (j % 2 ^ f)).1) % 4 ^ f =
        (posOfIJ f (o ^^^ POS_TO_ORIENTATION (IJ_TO_POS o (2 * (i / 2 ^ f) + j / 2 ^ f)))
          (i % 2 ^ f) (j % 2 ^ f)).1 := by
      rw [Nat.add_comm, Nat.add_mul_mod_self_right, Nat.mod_eq_of_lt ht]
    rw [hdiv, hmod, pos_to_ij_ij_to_pos o _ ho hd,
      ih _ _ _ ho' (Nat.mod_lt _ (by positivity)) (Nat.mod_lt _ (by positivity))]
    obtain ⟨a, hA⟩ : ∃ a, i / 2 ^ f = a := ⟨_, rfl⟩
    obtain ⟨b, hB⟩ : ∃ b, j / 2 ^ f = b := ⟨_, rfl⟩
    have hd2 : (2 * (i / 2 ^ f) + j / 2 ^ f) / 2 = i / 2 ^ f := by
      rw [hA, hB]
      rw [hA] at ha
      rw [hB] at hb
      omega
    have hm2 : (2 * (i / 2 ^ f) + j / 2 ^ f) % 2 = j / 2 ^ f := by
      rw [hA, hB]
      rw [hA] at ha
      rw [hB] at hb
      omega
    rw [hd2, hm2]
    simp only [Prod.mk.injEq]
    refine ⟨?_, ?_, trivial⟩
    · rw [Nat.mul_comm]
      exact Nat.div_add_mod i (2 ^ f)
    · rw [Nat.mul_comm]
      exact Nat.div_add_mod j (2 ^ f)

/-! Division helpers for block indices. -/

theorem block_div (P A q : Nat) (hP : 0 < P) (hq : q < P) : (A * P + q) / P = A := by
  rw [Nat.add_comm, Nat.add_mul_div_right _ _ hP, Nat.div_eq_of_lt hq, Nat.zero_add]

theorem block_mod (P A q : Nat) (hq : q < P) : (A * P + q) % P = q := by
  rw [Nat.add_comm, Nat.add_mul_mod_self_right, Nat.mod_eq_of_lt hq]

theorem slotp_i (P iB tI jB tJ orig : Nat) (ho : orig < 4) (hP : 0 < P)
    (hI : tI < P) (hJp : jB * P + tJ < 16) :
    (((iB * P + tI) * 16 + (jB * P + tJ)) * 4 + orig) / 4 / 16 / P = iB := by
  have h1 : (((iB * P + tI) * 16 + (jB * P + tJ)) * 4 + orig) / 4
      = (iB * P + tI) * 16 + (jB * P + tJ) := by omega
  have h2 : ((iB * P + tI) * 16 + (jB * P + tJ)) / 16 = iB * P + tI := by omega
  rw [h1, h2, block_div P iB tI hP hI]

theorem slotp_j (P iB tI jB tJ orig : Nat) (ho : orig < 4) (hP : 0 < P)
    (hJ : tJ < P) (hJp : jB * P + tJ < 16) :
    (((iB * P + tI) * 16 + (jB * P + tJ)) * 4 + orig) / 4 % 16 / P = jB := by
  have h1 : (((iB * P + tI) * 16 + (jB * P + tJ)) * 4 + orig) / 4
      = (iB * P + tI) * 16 + (jB * P + tJ) := by omega
  have h2 : ((iB * P + tI) * 16 + (jB * P + tJ)) % 16 = jB * P + tJ := by omega
  rw [h1, h2, block_div P jB tJ hP hJ]

/-! Frame lemmas: a call of init_lookup_cell leaves table slots outside its
own block untouched. -/

theorem init_cell_ij_frame (f : Nat) :
    ∀ level i j orig pos o tabs idx, orig < 4 →
    (idx % 4 ≠ orig ∨ idx / 4 / 4 ^ f ≠ pos) →
    (init_lookup_cell f level i j orig pos o tabs).2 idx = tabs.2 idx := by
  induction f with
  | zero =>
    intro level i j orig pos o tabs idx ho h
    simp only [pow_zero, Nat.div_one] at h
    simp only [init_lookup_cell, tabSet, Nat.shiftLeft_eq, LOOKUP_BITS,
      show (2:Nat) ^ 2 = 4 from rfl, show (2:Nat) ^ 4 = 16 from rfl]
    rw [if_neg (by omega)]
  | succ f ih =>
    intro level i j orig pos o tabs idx ho h
    simp only [init_lookup_cell, Nat.shiftLeft_eq, Nat.shiftRight_eq_div_pow,
      Nat.and_one_is_mod, pow_one, show (2:Nat) ^ 2 = 4 from rfl]
    rw [ih, ih, ih, ih]
    all_goals
      first
      | exact ho
      | (rcases h with h | h
         · exact Or.inl h
         · right
           rw [pow_succ, ← Nat.div_div_eq_div_mul] at h
           obtain ⟨X, hX⟩ : ∃ x, idx / 4 / 4 ^ f = x := ⟨_, rfl⟩
           rw [hX] at h ⊢
           omega)

theorem init_cell_pos_frame (f : Nat) :
    ∀ level i j orig pos o tabs idx, orig < 4 → (j + 1) * 2 ^ f ≤ 16 →
    (idx % 4 ≠ orig ∨ idx / 4 / 16 / 2 ^ f ≠ i ∨ idx / 4 % 16 / 2 ^ f ≠ j) →
    (init_lookup_cell f level i j orig pos o tabs).1 idx = tabs.1 idx := by
  induction f with
  | zero =>
    intro level i j orig pos o tabs idx ho hj h
    simp only [pow_zero, Nat.div_one] at h hj
    simp only [init_lookup_cell, tabSet, Nat.shiftLeft_eq, LOOKUP_BITS,
      show (2:Nat) ^ 2 = 4 from rfl, show (2:Nat) ^ 4 = 16 from rfl]
    rw [if_neg (by omega)]
  | succ f ih =>
    intro level i j orig pos o tabs idx ho hj h
    have hr0 := pos_to_ij_lt o 0
    have hr1 := pos_to_ij_lt o 1
    have hr2 := pos_to_ij_lt o 2
    have hr3 := pos_to_ij_lt o 3
    have hstep : ∀ c : Nat, (j * 2 + POS_TO_IJ o c % 2 + 1) * 2 ^ f ≤ 16 := by
      intro c
      have h1 : POS_TO_IJ o c % 2 ≤ 1 := by omega
      have h2 : (j * 2 + POS_TO_IJ o c % 2 + 1) * 2 ^ f ≤ ((j + 1) * 2) * 2 ^ f :=
        Nat.mul_le_mul_right _ (by omega)
      have h3 : ((j + 1) * 2) * 2 ^ f = (j + 1) * 2 ^ (f + 1) := by
        rw [pow_succ]; ring
      omega
    simp only [init_lookup_cell, Nat.shiftLeft_eq, Nat.shiftRight_eq_div_pow,
      Nat.and_one_is_mod, pow_one, show (2:Nat) ^ 2 = 4 from rfl]
    rw [ih, ih, ih, ih]
    all_goals
      first
      | exact ho
      | exact hstep _
      | (rcases h with h | h | h
         · exact Or.inl h
         · right; left
           rw [pow_succ, ← Nat.div_div_eq_div_mul] at h
           obtain ⟨X, hX⟩ : ∃ x, idx / 4 / 16 / 2 ^ f = x := ⟨_, rfl⟩
           rw [hX] at h ⊢
           omega
         · right; right
           rw [pow_succ, ← Nat.div_div_eq_div_mul] at h
           obtain ⟨X, hX⟩ : ∃ x, idx / 4 % 16 / 2 ^ f = x := ⟨_, rfl⟩
           rw [hX] at h ⊢
           omega)

/-! Value lemmas: the slot a call of init_lookup_cell writes for each of its
leaves holds exactly the closed-form value. -/

theorem init_cell_ij_val (f : Nat) :
    ∀ level i j orig pos o tabs q, orig < 4 → q < 4 ^ f →
    (init_lookup_cell f level i j orig pos o tabs).2 ((pos * 4 ^ f + q) * 4 + orig)
      = ((i * 2 ^ f + (ijOfPos f o q).1) * 16 + (j * 2 ^ f + (ijOfPos f o q).2.1)) * 4
        + (ijOfPos f o q).2.2 := by
  induction f with
  | zero =>
    intro level i j orig pos o tabs q ho hq
    simp only [pow_zero] at hq
    interval_cases q
    simp only [init_lookup_cell, tabSet, Nat.shiftLeft_eq, LOOKUP_BITS, ijOfPos,
      show (2:Nat) ^ 2 = 4 from rfl, show (2:Nat) ^ 4 = 16 from rfl, pow_zero]
    rw [if_pos (by ring)]
    ring
  | succ f ih =>
    intro level i j orig pos o tabs q ho hq
    obtain ⟨c, q', hc, hq', rfl⟩ : ∃ c q', c < 4 ∧ q' < 4 ^ f ∧ q = c * 4 ^ f + q' := by
      refine ⟨q / 4 ^ f, q % 4 ^ f, ?_, Nat.mod_lt _ (by positivity), ?_⟩
      · rw [Nat.div_lt_iff_lt_mul (by positivity)]
        rw [pow_succ] at hq
        omega
      · rw [Nat.mul_comm]
        exact (Nat.div_add_mod q (4 ^ f)).symm
    have hdiv : (c * 4 ^ f + q') / 4 ^ f = c := block_div _ _ _ (by positivity) hq'
    have hmod : (c * 4 ^ f + q') % 4 ^ f = q' := block_mod _ _ _ hq'
    have h1 : (ijOfPos (f + 1) o (c * 4 ^ f + q')).1
        = POS_TO_IJ o c / 2 * 2 ^ f + (ijOfPos f (o ^^^ POS_TO_ORIENTATION c) q').1 := by
      simp only [ijOfPos, hdiv, hmod]
    have h2 : (ijOfPos (f + 1) o (c * 4 ^ f + q')).2.1
        = POS_TO_IJ o c % 2 * 2 ^ f + (ijOfPos f (o ^^^ POS_TO_ORIENTATION c) q').2.1 := by
      simp only [ijOfPos, hdiv, hmod]
    have h3 : (ijOfPos (f + 1) o (c * 4 ^ f + q')).2.2
        = (ijOfPos f (o ^^^ POS_TO_ORIENTATION c) q').2.2 := by
      simp only [ijOfPos, hdiv, hmod]
    rw [h1, h2, h3]
    have hslot : (pos * 4 ^ (f + 1) + (c * 4 ^ f + q')) * 4 + orig
        = ((pos * 4 + c) * 4 ^ f + q') * 4 + orig := by
      rw [pow_succ]; ring
    rw [hslot]
    simp only [init_lookup_cell, Nat.shiftLeft_eq, Nat.shiftRight_eq_div_pow,
      Nat.and_one_is_mod, pow_one, show (2:Nat) ^ 2 = 4 from rfl]
    interval_cases c
    · simp only [Nat.add_zero]
      rw [init_cell_ij_frame f, init_cell_ij_frame f, init_cell_ij_frame f, ih]
      · rw [pow_succ]; ring
      all_goals
        first
        | exact ho
        | exact hq'
        | (right
           rw [show ((pos * 4) * 4 ^ f + q') * 4 + orig = ((pos * 4) * 4 ^ f + q') * 4 + orig
             from rfl]
           rw [show (((pos * 4) * 4 ^ f + q') * 4 + orig) / 4 = (pos * 4) * 4 ^ f + q'
             from by omega]
           rw [block_div _ _ _ (by positivity) hq']
           omega)
    · rw [init_cell_ij_frame f, init_cell_ij_frame f, ih]
      · rw [pow_succ]; ring
      all_goals
        first
        | exact ho
        | exact hq'
        | (right
           rw [show (((pos * 4 + 1) * 4 ^ f + q') * 4 + orig) / 4 = (pos * 4 + 1) * 4 ^ f + q'
             from by omega]
           rw [block_div _ _ _ (by positivity) hq']
           omega)
    · rw [init_cell_ij_frame f, ih]
      · rw [pow_succ]; ring
      all_goals
        first
        | exact ho
        | exact hq'
        | (right
           rw [show (((pos * 4 + 2) * 4 ^ f + q') * 4 + orig) / 4 = (pos * 4 + 2) * 4 ^ f + q'
             from by omega]
           rw [block_div _ _ _ (by positivity) hq']
           omega)
    · rw [ih]
      · rw [pow_succ]; ring
      all_goals
        first
        | exact ho
        | exact hq'

/-- Slots written for leaves of two distinct children of one cell differ in
their (i,j) block, because POS_TO_IJ is a permutation for each orientation. -/
theorem pos_slot_sibling (f i j orig o c c' t1 t2 : Nat)
    (ho : orig < 4) (hoo : o < 4) (hc : c < 4) (hc' : c' < 4) (hne : c ≠ c')
    (ht1 : t1 < 2 ^ f) (ht2 : t2 < 2 ^ f) (hj : (j + 1) * 2 ^ (f + 1) ≤ 16) :
    ((((i * 2 + POS_TO_IJ o c / 2) * 2 ^ f + t1) * 16 +
        ((j * 2 + POS_TO_IJ o c % 2) * 2 ^ f + t2)) * 4 + orig) % 4 ≠ orig ∨
    ((((i * 2 + POS_TO_IJ o c / 2) * 2 ^ f + t1) * 16 +
        ((j * 2 + POS_TO_IJ o c % 2) * 2 ^ f + t2)) * 4 + orig) / 4 / 16 / 2 ^ f
      ≠ i * 2 + POS_TO_IJ o c' / 2 ∨
    ((((i * 2 + POS_TO_IJ o c / 2) * 2 ^ f + t1) * 16 +
        ((j * 2 + POS_TO_IJ o c % 2) * 2 ^ f + t2)) * 4 + orig) / 4 % 16 / 2 ^ f
      ≠ j * 2 + POS_TO_IJ o c' % 2 := by
  have hrc := pos_to_ij_lt o c
  have hrc' := pos_to_ij_lt o c'
  have hJp : (j * 2 + POS_TO_IJ o c % 2) * 2 ^ f + t2 < 16 := by
    have e0 : j * 2 + POS_TO_IJ o c % 2 + 1 ≤ (j + 1) * 2 := by omega
    have e1 : (j * 2 + POS_TO_IJ o c % 2 + 1) * 2 ^ f ≤ ((j + 1) * 2) * 2 ^ f :=
      Nat.mul_le_mul_right _ e0
    have e2 : ((j + 1) * 2) * 2 ^ f = (j + 1) * 2 ^ (f + 1) := by
      rw [pow_succ]; ring
    have e3 : (j * 2 + POS_TO_IJ o c % 2 + 1) * 2 ^ f
        = (j * 2 + POS_TO_IJ o c % 2) * 2 ^ f + 2 ^ f := by ring
    omega
  rcases pos_to_ij_ne o c c' hoo hc hc' hne with h | h
  · right; left
    rw [slotp_i (2 ^ f) _ _ _ _ _ ho (by positivity) ht1 hJp]
    omega
  · right; right
    rw [slotp_j (2 ^ f) _ _ _ _ _ ho (by positivity) ht2 hJp]
    omega

theorem init_cell_pos_val (f : Nat) :
    ∀ level i j orig pos o tabs q, orig < 4 → o < 4 → q < 4 ^ f →
    (j + 1) * 2 ^ f ≤ 16 →
    (init_lookup_cell f level i j orig pos o tabs).1
        (((i * 2 ^ f + (ijOfPos f o q).1) * 16 + (j * 2 ^ f + (ijOfPos f o q).2.1)) * 4
          + orig)
      = (pos * 4 ^ f + q) * 4 + (ijOfPos f o q).2.2 := by
  induction f with
  | zero =>
    intro level i j orig pos o tabs q ho hoo hq hj
    simp only [pow_zero] at hq
    interval_cases q
    simp only [init_lookup_cell, tabSet, Nat.shiftLeft_eq, LOOKUP_BITS, ijOfPos,
      show (2:Nat) ^ 2 = 4 from rfl, show (2:Nat) ^ 4 = 16 from rfl, pow_zero]
    rw [if_pos (by ring)]
    ring
  | succ f ih =>
    intro level i j orig pos o tabs q ho hoo hq hj
    obtain ⟨c, q', hc, hq', rfl⟩ : ∃ c q', c < 4 ∧ q' < 4 ^ f ∧ q = c * 4 ^ f + q' := by
      refine ⟨q / 4 ^ f, q % 4 ^ f, ?_, Nat.mod_lt _ (by positivity), ?_⟩
      · rw [Nat.div_lt_iff_lt_mul (by positivity)]
        rw [pow_succ] at hq
        omega
      · rw [Nat.mul_comm]
        exact (Nat.div_add_mod q (4 ^ f)).symm
    have hdiv : (c * 4 ^ f + q') / 4 ^ f = c := block_div _ _ _ (by positivity) hq'
    have hmod : (c * 4 ^ f + q') % 4 ^ f = q' := block_mod _ _ _ hq'
    have h1 : (ijOfPos (f + 1) o (c * 4 ^ f + q')).1
        = POS_TO_IJ o c / 2 * 2 ^ f + (ijOfPos f (o ^^^ POS_TO_ORIENTATION c) q').1 := by
      simp only [ijOfPos, hdiv, hmod]
    have h2 : (ijOfPos (f + 1) o (c * 4 ^ f + q')).2.1
        = POS_TO_IJ o c % 2 * 2 ^ f + (ijOfPos f (o ^^^ POS_TO_ORIENTATION c) q').2.1 := by
      simp only [ijOfPos, hdiv, hmod]
    have h3 : (ijOfPos (f + 1) o (c * 4 ^ f + q')).2.2
        = (ijOfPos f (o ^^^ POS_TO_ORIENTATION c) q').2.2 := by
      simp only [ijOfPos, hdiv, hmod]
    rw [h1, h2, h3]
    obtain ⟨T1, hT1e⟩ : ∃ x, (ijOfPos f (o ^^^ POS_TO_ORIENTATION c) q').1 = x := ⟨_, rfl⟩
    obtain ⟨T2, hT2e⟩ : ∃ x, (ijOfPos f (o ^^^ POS_TO_ORIENTATION c) q').2.1 = x := ⟨_, rfl⟩
    have hT1 : T1 < 2 ^ f := hT1e ▸ ijOfPos_fst_lt f _ _
    have hT2 : T2 < 2 ^ f := hT2e ▸ ijOfPos_snd_lt f _ _
    rw [hT1e, hT2e]
    have hstep : ∀ c₀ : Nat, (j * 2 + POS_TO_IJ o c₀ % 2 + 1) * 2 ^ f ≤ 16 := by
      intro c₀
      have hr := pos_to_ij_lt o c₀
      have h1 : POS_TO_IJ o c₀ % 2 ≤ 1 := by omega
      have h2 : (j * 2 + POS_TO_IJ o c₀ % 2 + 1) * 2 ^ f ≤ ((j + 1) * 2) * 2 ^ f :=
        Nat.mul_le_mul_right _ (by omega)
      have h3 : ((j + 1) * 2) * 2 ^ f = (j + 1) * 2 ^ (f + 1) := by
        rw [pow_succ]; ring
      omega
    have hslot : ((i * 2 ^ (f + 1) + (POS_TO_IJ o c / 2 * 2 ^ f + T1)) * 16 +
        (j * 2 ^ (f + 1) + (POS_TO_IJ o c % 2 * 2 ^ f + T2))) * 4 + orig
      = (((i * 2 + POS_TO_IJ o c / 2) * 2 ^ f + T1) * 16 +
         ((j * 2 + POS_TO_IJ o c % 2) * 2 ^ f + T2)) * 4 + orig := by
      rw [pow_succ]; ring
    rw [hslot]
    simp only [init_lookup_cell, Nat.shiftLeft_eq, Nat.shiftRight_eq_div_pow,
      Nat.and_one_is_mod, pow_one, show (2:Nat) ^ 2 = 4 from rfl]
    interval_cases c
    · rw [init_cell_pos_frame f, init_cell_pos_frame f, init_cell_pos_frame f,
        ← hT1e, ← hT2e, ih]
      · rw [pow_succ]; ring
      all_goals
        first
        | exact ho
        | exact hq'
        | exact xor_lt_four hoo (pos_to_orientation_lt _)
        | exact hstep _
        | exact pos_slot_sibling f i j orig o 0 3 T1 T2 ho hoo (by omega) (by omega)
            (by omega) hT1 hT2 hj
        | exact pos_slot_sibling f i j orig o 0 2 T1 T2 ho hoo (by omega) (by omega)
            (by omega) hT1 hT2 hj
        | exact pos_slot_sibling f i j orig o 0 1 T1 T2 ho hoo (by omega) (by omega)
            (by omega) hT1 hT2 hj
    · rw [init_cell_pos_frame f, init_cell_pos_frame f, ← hT1e, ← hT2e, ih]
      · rw [pow_succ]; ring
      all_goals
        first
        | exact ho
        | exact hq'
        | exact xor_lt_four hoo (pos_to_orientation_lt _)
        | exact hstep _
        | exact pos_slot_sibling f i j orig o 1 3 T1 T2 ho hoo (by omega) (by omega)
            (by omega) hT1 hT2 hj
        | exact pos_slot_sibling f i j orig o 1 2 T1 T2 ho hoo (by omega) (by omega)
            (by omega) hT1 hT2 hj
    · rw [init_cell_pos_frame f, ← hT1e, ← hT2e, ih]
      · rw [pow_succ]; ring
      all_goals
        first
        | exact ho
        | exact hq'
        | exact xor_lt_four hoo (pos_to_orientation_lt _)
        | exact hstep _
        | exact pos_slot_sibling f i j orig o 2 3 T1 T2 ho hoo (by omega) (by omega)
            (by omega) hT1 hT2 hj
    · rw [← hT1e, ← hT2e, ih]
      · rw [pow_succ]; ring
      all_goals
        first
        | exact ho
        | exact hq'
        | exact xor_lt_four hoo (pos_to_orientation_lt _)
        | exact hstep _

/-- Every entry of the generated LOOKUP_IJ table equals its closed form. -/
theorem LOOKUP_IJ_eq (idx : Nat) (h : idx < 1024) : LOOKUP_IJ idx = lookupIJFun idx := by
  obtain ⟨orig, q, ho, hq, rfl⟩ :
      ∃ orig q, orig < 4 ∧ q < 256 ∧ idx = q * 4 + orig :=
    ⟨idx % 4, idx / 4, by omega, by omega, by omega⟩
  have hm : (q * 4 + orig) % 4 = orig := by omega
  have hd : (q * 4 + orig) / 4 = q := by omega
  have hq' : q < 4 ^ 4 := by norm_num; omega
  simp only [LOOKUP_IJ, init_lookup_tables, LOOKUP_BITS, SWAP_MASK, INVERT_MASK,
    show ((1:Nat) ||| 2) = 3 from rfl, lookupIJFun, hm, hd]
  interval_cases orig
  · rw [init_cell_ij_frame 4 _ _ _ _ _ _ _ _ (by omega) (Or.inl (by omega)),
      init_cell_ij_frame 4 _ _ _ _ _ _ _ _ (by omega) (Or.inl (by omega)),
      init_cell_ij_frame 4 _ _ _ _ _ _ _ _ (by omega) (Or.inl (by omega)),
      show q * 4 + 0 = (0 * 4 ^ 4 + q) * 4 + 0 from by ring,
      init_cell_ij_val 4 _ _ _ _ _ _ _ _ (by omega) hq']
    ring
  · rw [init_cell_ij_frame 4 _ _ _ _ _ _ _ _ (by omega) (Or.inl (by omega)),
      init_cell_ij_frame 4 _ _ _ _ _ _ _ _ (by omega) (Or.inl (by omega)),
      show q * 4 + 1 = (0 * 4 ^ 4 + q) * 4 + 1 from by ring,
      init_cell_ij_val 4 _ _ _ _ _ _ _ _ (by omega) hq']
    ring
  · rw [init_cell_ij_frame 4 _ _ _ _ _ _ _ _ (by omega) (Or.inl (by omega)),
      show q * 4 + 2 = (0 * 4 ^ 4 + q) * 4 + 2 from by ring,
      init_cell_ij_val 4 _ _ _ _ _ _ _ _ (by omega) hq']
    ring
  · rw [show q * 4 + 3 = (0 * 4 ^ 4 + q) * 4 + 3 from by ring,
      init_cell_ij_val 4 _ _ _ _ _ _ _ _ (by omega) hq']
    ring

/-- Every entry of the generated LOOKUP_POS table equals its closed form. -/
theorem LOOKUP_POS_eq (idx : Nat) (h : idx < 1024) :
    LOOKUP_POS idx = lookupPosFun idx := by
  obtain ⟨orig, I, J, ho, hI, hJ, rfl⟩ :
      ∃ orig I J, orig < 4 ∧ I < 16 ∧ J < 16 ∧ idx = (I * 16 + J) * 4 + orig :=
    ⟨idx % 4, idx / 4 / 16, idx / 4 % 16, by omega, by omega, by omega, by omega⟩
  have hm : ((I * 16 + J) * 4 + orig) % 4 = orig := by omega
  have hd4 : ((I * 16 + J) * 4 + orig) / 4 = I * 16 + J := by omega
  have hd16 : (I * 16 + J) / 16 = I := by omega
  have hm16 : (I * 16 + J) % 16 = J := by omega
  have hI' : I < 2 ^ 4 := by norm_num; omega
  have hJ' : J < 2 ^ 4 := by norm_num; omega
  have hrt := ijOfPos_posOfIJ 4 orig I J ho hI' hJ'
  have h1 : (ijOfPos 4 orig (posOfIJ 4 orig I J).1).1 = I := by rw [hrt]
  have h2 : (ijOfPos 4 orig (posOfIJ 4 orig I J).1).2.1 = J := by rw [hrt]
  have h3 : (ijOfPos 4 orig (posOfIJ 4 orig I J).1).2.2 = (posOfIJ 4 orig I J).2 := by
    rw [hrt]
  have hq' : (posOfIJ 4 orig I J).1 < 4 ^ 4 := posOfIJ_fst_lt 4 orig I J
  have hjb : (0 + 1) * 2 ^ 4 ≤ 16 := by norm_num
  simp only [LOOKUP_POS, init_lookup_tables, LOOKUP_BITS, SWAP_MASK, INVERT_MASK,
    show ((1:Nat) ||| 2) = 3 from rfl, lookupPosFun, hm, hd4, hd16, hm16]
  have hslot : (I * 16 + J) * 4 + orig
      = ((0 * 2 ^ 4 + (ijOfPos 4 orig (posOfIJ 4 orig I J).1).1) * 16 +
         (0 * 2 ^ 4 + (ijOfPos 4 orig (posOfIJ 4 orig I J).1).2.1)) * 4 + orig := by
    rw [h1, h2]; ring
  interval_cases orig
  · rw [init_cell_pos_frame 4 _ _ _ _ _ _ _ _ (by omega) hjb (Or.inl (by omega)),
      init_cell_pos_frame 4 _ _ _ _ _ _ _ _ (by omega) hjb (Or.inl (by omega)),
      init_cell_pos_frame 4 _ _ _ _ _ _ _ _ (by omega) hjb (Or.inl (by omega)),
      hslot, init_cell_pos_val 4 _ _ _ _ _ _ _ _ (by omega) (by omega) hq' hjb, h3]
    ring
  · rw [init_cell_pos_frame 4 _ _ _ _ _ _ _ _ (by omega) hjb (Or.inl (by omega)),
      init_cell_pos_frame 4 _ _ _ _ _ _ _ _ (by omega) hjb (Or.inl (by omega)),
      hslot, init_cell_pos_val 4 _ _ _ _ _ _ _ _ (by omega) (by omega) hq' hjb, h3]
    ring
  · rw [init_cell_pos_frame 4 _ _ _ _ _ _ _ _ (by omega) hjb (Or.inl (by omega)),
      hslot, init_cell_pos_val 4 _ _ _ _ _ _ _ _ (by omega) (by omega) hq' hjb, h3]
    ring
  · rw [hslot, init_cell_pos_val 4 _ _ _ _ _ _ _ _ (by omega) (by omega) hq' hjb, h3]
    ring

/-! Embedding of the S2CellId operations (src/s2/s2cell_id.rs). A cell id is
a u64 value, modelled as a Nat below 2^64. -/

/-- FACE_BITS from src/s2/s2cell_id.rs. -/
def FACE_BITS : Nat := 3

/-- NUM_FACES from src/s2/s2cell_id.rs. -/
def NUM_FACES : Nat := 6

/-- MAX_LEVEL from src/s2/s2cell_id.rs. -/
def MAX_LEVEL : Nat := 30

/-- POS_BITS from src/s2/s2cell_id.rs (= 61). -/
def POS_BITS : Nat := 2 * MAX_LEVEL + 1

/-- face() from src/s2/s2cell_id.rs: the top three bits. -/
def face (id : Nat) : Nat := id >>> POS_BITS

/-- u64::wrapping_neg, the two's-complement negation mod 2^64. -/
def wrapping_neg (x : Nat) : Nat := (2 ^ 64 - x % 2 ^ 64) % 2 ^ 64

/-- lsb() from src/s2/s2cell_id.rs: the source computes
id & (id.wrapping_neg() + 1); the + 1 wraps in release builds (it overflows
a u64 when id = 1), modelled with an explicit mod 2^64. -/
def lsb (id : Nat) : Nat := id &&& ((wrapping_neg id + 1) % 2 ^ 64)

/-- is_valid() from src/s2/s2cell_id.rs. -/
def is_valid (id : Nat) : Bool :=
  decide (face id < NUM_FACES) && decide (lsb id &&& 0x1555555555555555 ≠ 0)

/-- is_leaf() from src/s2/s2cell_id.rs. -/
def is_leaf (id : Nat) : Bool := decide (id &&& 1 ≠ 0)

/-- none() from src/s2/s2cell_id.rs: the zero identifier. -/
def none_id : Nat := 0

/-- sentinel() from src/s2/s2cell_id.rs: u64::MAX. -/
def sentinel_id : Nat := 2 ^ 64 - 1

/-- The helper get_bits of to_face_ij_orientation in src/s2/s2cell_id.rs,
acting on the loop state (i, j, bits). -/
def get_bits (id k : Nat) (st : Nat × Nat × Nat) : Nat × Nat × Nat :=
  let nbits := if k = 7 then MAX_LEVEL - 7 * LOOKUP_BITS else LOOKUP_BITS
  let bits := st.2.2 +
    (((id >>> (k * 2 * LOOKUP_BITS + 1)) &&& ((1 <<< (2 * nbits)) - 1)) <<< 2)
  let bits2 := LOOKUP_IJ bits
  let i := st.1 + ((bits2 >>> (LOOKUP_BITS + 2)) <<< (k * LOOKUP_BITS))
  let j := st.2.1 + (((bits2 >>> 2) &&& ((1 <<< LOOKUP_BITS) - 1)) <<< (k * LOOKUP_BITS))
  (i, j, bits2 &&& (SWAP_MASK ||| INVERT_MASK))

/-- to_face_ij_orientation from src/s2/s2cell_id.rs: the 8 chunks are
consumed most significant first, then the final orientation adjustment
(which calls the lsb embedded above) is applied. -/
def to_face_ij_orientation (id : Nat) : Nat × Nat × Nat × Nat :=
  let f := face id
  let st := (List.range 8).reverse.foldl (fun s k => get_bits id k s)
    (0, 0, f &&& SWAP_MASK)
  let orientation :=
    if lsb id &&& 0x1111111111111110 ≠ 0 then st.2.2 ^^^ SWAP_MASK else st.2.2
  (f, st.1, st.2.1, orientation)

/-- The index into LOOKUP_IJ computed by get_bits at chunk k from state st. -/
def get_bits_index (id k : Nat) (st : Nat × Nat × Nat) : Nat :=
  let nbits := if k = 7 then MAX_LEVEL - 7 * LOOKUP_BITS else LOOKUP_BITS
  st.2.2 + (((id >>> (k * 2 * LOOKUP_BITS + 1)) &&& ((1 <<< (2 * nbits)) - 1)) <<< 2)

/-- All LOOKUP_IJ indices computed while decoding id, in access order. -/
def decode_indices (id : Nat) : List Nat :=
  ((List.range 8).reverse.foldl
    (fun acc k => (acc.1 ++ [get_bits_index id k acc.2], get_bits id k acc.2))
    (([] : List Nat), ((0, 0, face id &&& SWAP_MASK) : Nat × Nat × Nat))).1

/-- num_traits ToPrimitive::to_i32 on a u64: some value iff it fits in i32. -/
def to_i32 (x : Nat) : Option Nat := if x < 2 ^ 31 then some x else Option.none

/-- get_center_siti from src/s2/s2cell_id.rs; the decode runs first, then the
leaf test; in the non-leaf branch the source calls
self.id.to_i32().unwrap(), whose failure (id above i32::MAX) is modelled by
Option.none. -/
def get_center_siti (id : Nat) : Option (Nat × Nat × Nat) :=
  let d := to_face_ij_orientation id
  if is_leaf id then some (d.1, 2 * d.2.1 + 1, 2 * d.2.2.1 + 1)
  else
    match to_i32 id with
    | Option.none => Option.none
    | some v =>
      let delta := if (d.2.1 ^^^ (v >>> 2)) &&& 1 ≠ 0 then 2 else 0
      some (d.1, 2 * d.2.1 + delta, 2 * d.2.2.1 + delta)

/-- Fuel-driven count of trailing zero bits (64 bits of fuel cover a u64). -/
def trailing_zeros : Nat → Nat → Nat
  | 0, _ => 0
  | fuel + 1, n => if n &&& 1 = 1 then 0 else trailing_zeros fuel (n >>> 1) + 1

/-- Modelled from the spec: level() in src/s2/s2cell_id.rs is an unfinished
todo stub; the design document states
level = 30 - (bit_position_of_lowest_set_bit - 1) / 2 with a 1-based bit
position, and requires id ≠ 0. -/
def level (id : Nat) : Nat :=
  MAX_LEVEL - (trailing_zeros 64 id + 1 - 1) / 2

/-- Modelled from the spec: the 61-bit curve position of the center of the
leaf cell with coordinates (i, j) on face f (§3, §4.1): the face determines
the starting orientation through its swap parity, the 30 bit pairs are those
of the Hilbert curve position of the leaf, and the trailing 1 bit marks the
center. The (face,i,j) → curve-position encoder is absent from src. -/
def leaf_pos (f i j : Nat) : Nat := 2 * (posOfIJ 30 (f &&& SWAP_MASK) i j).1 + 1

/-- Modelled from the spec: the identifier layout of §3 — face number, the
first level bit pairs of the curve position, one sentinel bit, zeros.
from_face_pos_level in src/s2/s2cell_id.rs is an unfinished todo stub. -/
def from_face_pos_level (f pos lv : Nat) : Nat :=
  f * 2 ^ 61 + pos / 2 ^ (61 - 2 * lv) * 2 ^ (61 - 2 * lv) + 2 ^ (60 - 2 * lv)

/-- face_uv_to_xyz from src/s2/mod.rs; the six match arms place (u, v) on
the cube face and the catchall arm panics, modelled by Option.none. The f64
components involve no arithmetic beyond negation here, modelled exactly
over ℚ; the face index is an i32, modelled as Int. -/
def face_uv_to_xyz (f : Int) (u v : ℚ) : Option (ℚ × ℚ × ℚ) :=
  if f = 0 then some (1, u, v)
  else if f = 1 then some (-u, 1, v)
  else if f = 2 then some (-u, -v, 1)
  else if f = 3 then some (-1, -v, -u)
  else if f = 4 then some (v, -1, -u)
  else if f = 5 then some (v, u, -1)
  else Option.none

/-- The fixed linear embedding of (u,v) onto each cube face as stated by the
spec (§4.2), total on faces 0 to 5; stated separately from the source
function to compare the two. -/
def face_embedding (f : Int) (u v : ℚ) : ℚ × ℚ × ℚ :=
  if f = 0 then (1, u, v)
  else if f = 1 then (-u, 1, v)
  else if f = 2 then (-u, -v, 1)
  else if f = 3 then (-1, -v, -u)
  else if f = 4 then (v, -1, -u)
  else (v, u, -1)

/-! Mask and power conversion helpers. -/

theorem and_one (x : Nat) : x &&& 1 = x % 2 := Nat.and_one_is_mod x

theorem and_three (x : Nat) : x &&& 3 = x % 4 := by
  simpa using Nat.and_pow_two_sub_one_eq_mod x 2

theorem and_15 (x : Nat) : x &&& 15 = x % 16 := by
  simpa using Nat.and_pow_two_sub_one_eq_mod x 4

theorem and_255 (x : Nat) : x &&& 255 = x % 256 := by
  simpa using Nat.and_pow_two_sub_one_eq_mod x 8

theorem four_pow_eq (n : Nat) : (4:Nat) ^ n = 2 ^ (2 * n) := by
  rw [show (4:Nat) = 2 ^ 2 from rfl, ← pow_mul]

/-- Composing the Hilbert descent: the first m pairs of pos, then the last n
pairs, from the orientation the first part ends with. -/
theorem ijOfPos_add (m n : Nat) : ∀ o pos, pos < 4 ^ (m + n) →
    ijOfPos (m + n) o pos =
      ((ijOfPos m o (pos / 4 ^ n)).1 * 2 ^ n +
         (ijOfPos n (ijOfPos m o (pos / 4 ^ n)).2.2 (pos % 4 ^ n)).1,
       (ijOfPos m o (pos / 4 ^ n)).2.1 * 2 ^ n +
         (ijOfPos n (ijOfPos m o (pos / 4 ^ n)).2.2 (pos % 4 ^ n)).2.1,
       (ijOfPos n (ijOfPos m o (pos / 4 ^ n)).2.2 (pos % 4 ^ n)).2.2) := by
  induction m with
  | zero =>
    intro o pos hp
    rw [Nat.zero_add] at hp
    rw [Nat.zero_add, Nat.mod_eq_of_lt hp]
    simp [ijOfPos]
  | succ m ih =>
    intro o pos hp
    have e1 : pos / 4 ^ n / 4 ^ m = pos / 4 ^ (m + n) := by
      rw [Nat.div_div_eq_div_mul, ← pow_add, Nat.add_comm n m]
    have e2 : pos / 4 ^ n % 4 ^ m = pos % 4 ^ (m + n) / 4 ^ n := by
      rw [show (4:Nat) ^ (m + n) = 4 ^ n * 4 ^ m from by rw [← pow_add, Nat.add_comm],
        Nat.mod_mul_right_div_self]
    have e3 : pos % 4 ^ (m + n) % 4 ^ n = pos % 4 ^ n :=
      Nat.mod_mod_of_dvd _ (pow_dvd_pow 4 (by omega))
    rw [show m + 1 + n = (m + n) + 1 from by omega]
    simp only [ijOfPos]
    rw [e1, e2,
      ih (o ^^^ POS_TO_ORIENTATION (pos / 4 ^ (m + n))) (pos % 4 ^ (m + n))
        (Nat.mod_lt _ (by positivity)), e3]
    simp only [Prod.mk.injEq]
    refine ⟨?_, ?_, trivial⟩
    · rw [pow_add]; ring
    · rw [pow_add]; ring

/-- A LOOKUP_IJ read at index b + c * 4 returns the packed closed form. -/
theorem lookup_ij_entry (c b : Nat) (hc : c < 256) (hb : b < 4) :
    LOOKUP_IJ (b + c * 4) =
      ((ijOfPos 4 b c).1 * 16 + (ijOfPos 4 b c).2.1) * 4 + (ijOfPos 4 b c).2.2 := by
  rw [LOOKUP_IJ_eq _ (by omega)]
  simp only [lookupIJFun, LOOKUP_BITS]
  rw [show (b + c * 4) % 4 = b from by omega, show (b + c * 4) / 4 = c from by omega]

/-- On a position with its two leading pairs zero and a swap-only starting
orientation, the four-level descent reduces to the two-level descent. -/
theorem ijOfPos4_of_lt16 (b pos : Nat) (hb : b < 2) (hp : pos < 16) :
    ijOfPos 4 b pos = ijOfPos 2 b pos := by
  interval_cases b <;> interval_cases pos <;> decide

/-- The get_bits step for the seven full chunks, in closed form. -/
theorem get_bits_eq (id k i0 j0 b : Nat) (hk : k < 7) (hb : b < 4) :
    get_bits id k (i0, j0, b) =
      (i0 + (ijOfPos 4 b (id / 2 ^ (k * 2 * 4 + 1) % 256)).1 * 2 ^ (k * 4),
       j0 + (ijOfPos 4 b (id / 2 ^ (k * 2 * 4 + 1) % 256)).2.1 * 2 ^ (k * 4),
       (ijOfPos 4 b (id / 2 ^ (k * 2 * 4 + 1) % 256)).2.2) := by
  have hI := ijOfPos_fst_lt 4 b (id / 2 ^ (k * 2 * 4 + 1) % 256)
  have hJ := ijOfPos_snd_lt 4 b (id / 2 ^ (k * 2 * 4 + 1) % 256)
  have hF := ijOfPos_orient_lt 4 b (id / 2 ^ (k * 2 * 4 + 1) % 256) hb
  rw [show (2:Nat) ^ 4 = 16 from rfl] at hI hJ
  simp only [get_bits, LOOKUP_BITS, SWAP_MASK, INVERT_MASK, MAX_LEVEL,
    if_neg (show ¬ k = 7 from by omega), Nat.shiftLeft_eq, Nat.shiftRight_eq_div_pow,
    and_255, and_15, and_one]
  norm_num
  rw [and_255, lookup_ij_entry _ _ (Nat.mod_lt _ (by norm_num)) hb]
  rw [show (((ijOfPos 4 b (id / 2 ^ (k * 2 * 4 + 1) % 256)).1 * 16 +
      (ijOfPos 4 b (id / 2 ^ (k * 2 * 4 + 1) % 256)).2.1) * 4 +
      (ijOfPos 4 b (id / 2 ^ (k * 2 * 4 + 1) % 256)).2.2) / 64
      = (ijOfPos 4 b (id / 2 ^ (k * 2 * 4 + 1) % 256)).1 from by omega]
  rw [and_15]
  rw [show (((ijOfPos 4 b (id / 2 ^ (k * 2 * 4 + 1) % 256)).1 * 16 +
      (ijOfPos 4 b (id / 2 ^ (k * 2 * 4 + 1) % 256)).2.1) * 4 +
      (ijOfPos 4 b (id / 2 ^ (k * 2 * 4 + 1) % 256)).2.2) / 4 % 16
      = (ijOfPos 4 b (id / 2 ^ (k * 2 * 4 + 1) % 256)).2.1 from by omega]
  refine ⟨rfl, rfl, ?_⟩
  rw [show ((1:Nat) ||| 2) = 3 from rfl, and_three]
  omega

/-- The get_bits step for the top half chunk (k = 7), in closed form: only
two levels of descent act, the two leading pairs being zero. -/
theorem get_bits7_eq (id i0 j0 b : Nat) (hb : b < 2) :
    get_bits id 7 (i0, j0, b) =
      (i0 + (ijOfPos 2 b (id / 2 ^ 57 % 16)).1 * 2 ^ 28,
       j0 + (ijOfPos 2 b (id / 2 ^ 57 % 16)).2.1 * 2 ^ 28,
       (ijOfPos 2 b (id / 2 ^ 57 % 16)).2.2) := by
  have hc : id / 2 ^ 57 % 16 < 16 := Nat.mod_lt _ (by norm_num)
  have hI := ijOfPos_snd_lt 2 b (id / 2 ^ 57 % 16)
  have hJ := ijOfPos_snd_lt 2 b (id / 2 ^ 57 % 16)
  have hF := ijOfPos_orient_lt 2 b (id / 2 ^ 57 % 16) (by omega)
  rw [show (2:Nat) ^ 2 = 4 from rfl] at hI hJ
  have h4 : ijOfPos 4 b (id / 2 ^ 57 % 16) = ijOfPos 2 b (id / 2 ^ 57 % 16) :=
    ijOfPos4_of_lt16 b _ hb hc
  simp only [get_bits, LOOKUP_BITS, SWAP_MASK, INVERT_MASK, MAX_LEVEL,
    if_pos (show (7:Nat) = 7 from rfl), Nat.shiftLeft_eq, Nat.shiftRight_eq_div_pow,
    and_15, and_one]
  norm_num
  rw [show (144115188075855872:Nat) = 2 ^ 57 from by norm_num]
  rw [and_15, lookup_ij_entry _ _ (by omega) (by omega), h4]
  rw [show (((ijOfPos 2 b (id / 2 ^ 57 % 16)).1 * 16 +
      (ijOfPos 2 b (id / 2 ^ 57 % 16)).2.1) * 4 +
      (ijOfPos 2 b (id / 2 ^ 57 % 16)).2.2) / 64
      = (ijOfPos 2 b (id / 2 ^ 57 % 16)).1 from by omega]
  rw [and_15]
  rw [show (((ijOfPos 2 b (id / 2 ^ 57 % 16)).1 * 16 +
      (ijOfPos 2 b (id / 2 ^ 57 % 16)).2.1) * 4 +
      (ijOfPos 2 b (id / 2 ^ 57 % 16)).2.2) / 4 % 16
      = (ijOfPos 2 b (id / 2 ^ 57 % 16)).2.1 from by omega]
  refine ⟨rfl, rfl, ?_⟩
  rw [show ((1:Nat) ||| 2) = 3 from rfl, and_three]
  omega

/-- Folding get_bits over chunks t-1, ..., 0 accumulates the closed-form
descent along the low 8t id bits above the sentinel position. -/
theorem decode_fold (t : Nat) : t ≤ 7 → ∀ id i0 j0 b, b < 4 →
    (List.range t).reverse.foldl (fun s k => get_bits id k s) (i0, j0, b) =
      (i0 + (ijOfPos (4 * t) b (id / 2 % 4 ^ (4 * t))).1,
       j0 + (ijOfPos (4 * t) b (id / 2 % 4 ^ (4 * t))).2.1,
       (ijOfPos (4 * t) b (id / 2 % 4 ^ (4 * t))).2.2) := by
  induction t with
  | zero =>
    intro ht id i0 j0 b hb
    simp [ijOfPos]
  | succ t ih =>
    intro ht id i0 j0 b hb
    rw [List.range_succ, List.reverse_append, List.reverse_singleton,
      List.singleton_append, List.foldl_cons,
      get_bits_eq id t i0 j0 b (by omega) hb,
      ih (by omega) id _ _ _ (ijOfPos_orient_lt 4 b _ hb)]
    have hsplit : 4 * (t + 1) = 4 + 4 * t := by ring
    rw [hsplit, ijOfPos_add 4 (4 * t) b (id / 2 % 4 ^ (4 + 4 * t))
      (Nat.mod_lt _ (by positivity))]
    have e1 : id / 2 % 4 ^ (4 + 4 * t) / 4 ^ (4 * t) = id / 2 ^ (t * 2 * 4 + 1) % 256 := by
      rw [show (4:Nat) ^ (4 + 4 * t) = 4 ^ (4 * t) * 256 from by
          rw [show 4 + 4 * t = 4 * t + 4 from by ring, pow_add]; norm_num,
        Nat.mod_mul_right_div_self,
        Nat.div_div_eq_div_mul,
        show (2:Nat) * 4 ^ (4 * t) = 2 ^ (t * 2 * 4 + 1) from by
          rw [four_pow_eq, show 2 * (4 * t) = t * 2 * 4 from by ring, pow_succ]; ring,
        show (256:Nat) = 4 ^ 4 from by norm_num]
    have e2 : id / 2 % 4 ^ (4 + 4 * t) % 4 ^ (4 * t) = id / 2 % 4 ^ (4 * t) :=
      Nat.mod_mod_of_dvd _ (pow_dvd_pow 4 (by omega))
    rw [e1, e2]
    simp only [Prod.mk.injEq]
    refine ⟨by ring, by ring, trivial⟩

/-- Closed form of the full decode: to_face_ij_orientation descends the 30
position pairs of the id (the bits above the lowest bit) starting from the
swap parity of the face field. -/
theorem decode_ij (id : Nat) :
    to_face_ij_orientation id =
      (face id,
       (ijOfPos 30 (face id % 2) (id / 2 % 4 ^ 30)).1,
       (ijOfPos 30 (face id % 2) (id / 2 % 4 ^ 30)).2.1,
       if lsb id &&& 0x1111111111111110 ≠ 0 then
         (ijOfPos 30 (face id % 2) (id / 2 % 4 ^ 30)).2.2 ^^^ 1
       else (ijOfPos 30 (face id % 2) (id / 2 % 4 ^ 30)).2.2) := by
  have hb2 : face id % 2 < 2 := Nat.mod_lt _ (by norm_num)
  simp only [to_face_ij_orientation, SWAP_MASK, and_one]
  rw [List.range_succ, List.reverse_append, List.reverse_singleton,
    List.singleton_append, List.foldl_cons,
    get_bits7_eq id 0 0 (face id % 2) hb2,
    decode_fold 7 (by norm_num) id _ _ _ (ijOfPos_orient_lt 2 _ _ (by omega))]
  rw [show (30:Nat) = 2 + 28 from by norm_num,
    ijOfPos_add 2 28 (face id % 2) (id / 2 % 4 ^ (2 + 28)) (Nat.mod_lt _ (by positivity))]
  have e1 : id / 2 % 4 ^ (2 + 28) / 4 ^ 28 = id / 2 ^ 57 % 16 := by
    rw [show (4:Nat) ^ (2 + 28) = 4 ^ 28 * 16 from by rw [Nat.add_comm, pow_add]; norm_num,
      Nat.mod_mul_right_div_self, Nat.div_div_eq_div_mul,
      show (2:Nat) * 4 ^ 28 = 2 ^ 57 from by rw [four_pow_eq]; norm_num]
  have e2 : id / 2 % 4 ^ (2 + 28) % 4 ^ 28 = id / 2 % 4 ^ 28 :=
    Nat.mod_mod_of_dvd _ (pow_dvd_pow 4 (by omega))
  rw [e1, e2, show (4 * 7 : Nat) = 28 from rfl]
  simp only [Prod.mk.injEq]
  refine ⟨trivial, by ring, by ring, trivial⟩

/-! Bounds on the decode loop state and on the table indices it computes. -/

theorem get_bits_state_lt (id k : Nat) (st : Nat × Nat × Nat) :
    (get_bits id k st).2.2 < 4 := by
  simp only [get_bits, SWAP_MASK, INVERT_MASK, show ((1:Nat) ||| 2) = 3 from rfl,
    and_three]
  omega

theorem get_bits_index_lt (id k : Nat) (st : Nat × Nat × Nat) (hb : st.2.2 < 4) :
    get_bits_index id k st < 1024 := by
  simp only [get_bits_index, MAX_LEVEL, LOOKUP_BITS, Nat.shiftLeft_eq,
    Nat.shiftRight_eq_div_pow]
  rcases eq_or_ne k 7 with h | h
  · rw [if_pos h]
    norm_num
    rw [and_15]
    have := Nat.mod_lt (id / 2 ^ (k * 2 * 4 + 1)) (show 0 < 16 from by norm_num)
    omega
  · rw [if_neg h]
    norm_num
    rw [and_255]
    have := Nat.mod_lt (id / 2 ^ (k * 2 * 4 + 1)) (show 0 < 256 from by norm_num)
    omega

theorem decode_trace_fold (t : Nat) : ∀ id acc (st : Nat × Nat × Nat), st.2.2 < 4 →
    (∀ x ∈ acc, x < 1024) →
    ∀ x ∈ ((List.range t).reverse.foldl
      (fun a k => (a.1 ++ [get_bits_index id k a.2], get_bits id k a.2)) (acc, st)).1,
      x < 1024 := by
  induction t with
  | zero =>
    intro id acc st _ hacc x hx
    simpa using hacc x (by simpa using hx)
  | succ t ih =>
    intro id acc st hb hacc
    rw [List.range_succ, List.reverse_append, List.reverse_singleton,
      List.singleton_append, List.foldl_cons]
    refine ih id _ _ (get_bits_state_lt id t st) ?_
    intro x hx
    rcases List.mem_append.mp hx with h | h
    · exact hacc x h
    · rw [List.mem_singleton.mp h]
      exact get_bits_index_lt id t st hb

theorem decode_indices_lt (id : Nat) : ∀ x ∈ decode_indices id, x < 1024 := by
  unfold decode_indices
  refine decode_trace_fold 8 id [] _ ?_ (by simp)
  simp only [SWAP_MASK, and_one]
  omega

/-! Spec-modelled trailing-zero count: characterization. -/

theorem trailing_zeros_eq : ∀ m fuel n, m < fuel → n % 2 ^ (m + 1) = 2 ^ m →
    trailing_zeros fuel n = m := by
  intro m
  induction m with
  | zero =>
    intro fuel n hf h
    obtain ⟨g, rfl⟩ : ∃ g, fuel = g + 1 := ⟨fuel - 1, by omega⟩
    simp only [zero_add, pow_one, pow_zero] at h
    simp only [trailing_zeros, and_one]
    rw [if_pos h]
  | succ m ih =>
    intro fuel n hf h
    obtain ⟨g, rfl⟩ : ∃ g, fuel = g + 1 := ⟨fuel - 1, by omega⟩
    have hp2 : (2:Nat) ^ (m + 2) = 2 ^ (m + 1) * 2 := pow_succ 2 (m + 1)
    have hp1 : (2:Nat) ^ (m + 1) = 2 ^ m * 2 := pow_succ 2 m
    have hev : n % 2 = 0 := by
      have hd : n % 2 ^ (m + 2) % 2 = n % 2 :=
        Nat.mod_mod_of_dvd n (Dvd.intro_left _ hp2.symm)
      rw [h] at hd
      omega
    simp only [trailing_zeros, and_one, hev]
    rw [if_neg (by omega), Nat.shiftRight_eq_div_pow, pow_one]
    rw [ih g (n / 2) (by omega) ?_]
    obtain ⟨a, ha⟩ : ∃ a, n = 2 ^ (m + 2) * a + 2 ^ (m + 1) := by
      refine ⟨n / 2 ^ (m + 2), ?_⟩
      have := Nat.div_add_mod n (2 ^ (m + 2))
      rw [h] at this
      omega
    have hhalf : n / 2 = 2 ^ (m + 1) * a + 2 ^ m := by
      rw [ha, show 2 ^ (m + 2) * a + 2 ^ (m + 1) = 2 * (2 ^ (m + 1) * a + 2 ^ m) from by
        rw [hp2, hp1]; ring]
      exact Nat.mul_div_cancel_left _ (by norm_num)
    rw [hhalf, Nat.mul_add_mod, Nat.mod_eq_of_lt (by omega)]

/-! Claim theorems. -/

/-- C1: the claim states lsb() returns id & (-id) = id & (~id + 1), isolating
the lowest set bit. The source instead computes id & (wrapping_neg(id) + 1):
at id = 3 the code returns 2 while id & (2^64 - 3) = 1 (the lowest set bit),
and at id = 1 the code returns 0 while id & (2^64 - 1) = 1. This evaluates
the embedded source lsb at those failing inputs. -/
theorem claim_C1 :
    lsb 3 = 2 ∧ (3 &&& (2 ^ 64 - 3)) = 1 ∧ lsb 1 = 0 ∧ (1 &&& (2 ^ 64 - 1)) = 1 := by
  refine ⟨by decide, by decide, by decide, by decide⟩

/-- C2: the claim states is_valid is true iff the face is below 6 and the
lowest set bit masked with 0x1555555555555555 is nonzero, so that the
identifier 1 (face 0, thirty zero bit pairs, sentinel bit) is valid. The
face of 1 is in range and its lowest set bit meets the mask, yet the
embedded source is_valid returns false on it, because is_valid calls the
broken lsb. -/
theorem claim_C2 :
    is_valid 1 = false ∧ (1:Nat) >>> 61 < 6 ∧
      ((1:Nat) &&& (2 ^ 64 - 1)) &&& 0x1555555555555555 ≠ 0 := by
  refine ⟨by decide, by decide, by decide⟩

/-- C3: for every valid identifier whose sentinel (lowest set) bit sits at
bit position 2*(30-k) with k ≤ 30, the spec-modelled level() returns k.
level() in src is a todo stub, so it is modelled from the spec. -/
theorem claim_C3 (k id : Nat) (hk : k ≤ 30) (hv : is_valid id = true)
    (hs : id % 2 ^ (2 * (30 - k) + 1) = 2 ^ (2 * (30 - k))) :
    level id = k := by
  have htz : trailing_zeros 64 id = 2 * (30 - k) :=
    trailing_zeros_eq (2 * (30 - k)) 64 id (by omega) hs
  simp only [level, MAX_LEVEL, htz]
  omega

/-- Witness for C3 at k = 5, id = 2^50. -/
theorem claim_C3_witness :
    (5 ≤ 30 ∧ is_valid (2 ^ 50) = true ∧
      2 ^ 50 % 2 ^ (2 * (30 - 5) + 1) = 2 ^ (2 * (30 - 5))) ∧ level (2 ^ 50) = 5 :=
  ⟨⟨by norm_num, by decide, by norm_num⟩,
    claim_C3 5 (2 ^ 50) (by norm_num) (by decide) (by norm_num)⟩

/-- C5: the generated tables are mutual inverses: if lookup_pos at grid
chunk ij and starting orientation o holds position pos and ending
orientation o2, then lookup_ij at position pos and starting orientation o
holds grid chunk ij with the same ending orientation o2. -/
theorem claim_C5 (ij o : Nat) (hij : ij < 256) (ho : o < 4) :
    LOOKUP_IJ (((LOOKUP_POS ((ij <<< 2) + o) >>> 2) <<< 2) + o)
      = (ij <<< 2) + (LOOKUP_POS ((ij <<< 2) + o) &&& 3) := by
  have hP := posOfIJ_fst_lt 4 o (ij / 16) (ij % 16)
  have hO := posOfIJ_snd_lt 4 o (ij / 16) (ij % 16) ho
  rw [show (4:Nat) ^ 4 = 256 from by norm_num] at hP
  have hrt := ijOfPos_posOfIJ 4 o (ij / 16) (ij % 16) ho (by omega) (by omega)
  have hrt1 : (ijOfPos 4 o (posOfIJ 4 o (ij / 16) (ij % 16)).1).1 = ij / 16 := by
    rw [hrt]
  have hrt2 : (ijOfPos 4 o (posOfIJ 4 o (ij / 16) (ij % 16)).1).2.1 = ij % 16 := by
    rw [hrt]
  have hrt3 : (ijOfPos 4 o (posOfIJ 4 o (ij / 16) (ij % 16)).1).2.2
      = (posOfIJ 4 o (ij / 16) (ij % 16)).2 := by
    rw [hrt]
  have hpos : LOOKUP_POS (ij * 4 + o)
      = (posOfIJ 4 o (ij / 16) (ij % 16)).1 * 4 + (posOfIJ 4 o (ij / 16) (ij % 16)).2 := by
    rw [LOOKUP_POS_eq _ (by omega)]
    simp only [lookupPosFun, LOOKUP_BITS]
    rw [show (ij * 4 + o) % 4 = o from by omega,
      show (ij * 4 + o) / 4 = ij from by omega]
  have he2 : LOOKUP_POS (ij * 4 + o) >>> 2 = (posOfIJ 4 o (ij / 16) (ij % 16)).1 := by
    rw [hpos, Nat.shiftRight_eq_div_pow, show (2:Nat) ^ 2 = 4 from rfl]
    omega
  have he3 : LOOKUP_POS (ij * 4 + o) &&& 3 = (posOfIJ 4 o (ij / 16) (ij % 16)).2 := by
    rw [hpos, and_three]
    omega
  simp only [Nat.shiftLeft_eq, show (2:Nat) ^ 2 = 4 from rfl]
  rw [he2, he3, LOOKUP_IJ_eq _ (by omega)]
  simp only [lookupIJFun, LOOKUP_BITS]
  rw [show ((posOfIJ 4 o (ij / 16) (ij % 16)).1 * 4 + o) % 4 = o from by omega,
    show ((posOfIJ 4 o (ij / 16) (ij % 16)).1 * 4 + o) / 4
      = (posOfIJ 4 o (ij / 16) (ij % 16)).1 from by omega,
    hrt1, hrt2, hrt3]
  omega

/-- Witness for C5 at ij = 37, o = 2. -/
theorem claim_C5_witness :
    (37 < 256 ∧ 2 < 4) ∧
      LOOKUP_IJ (((LOOKUP_POS ((37 <<< 2) + 2) >>> 2) <<< 2) + 2)
        = (37 <<< 2) + (LOOKUP_POS ((37 <<< 2) + 2) &&& 3) :=
  ⟨⟨by decide, by decide⟩, claim_C5 37 2 (by decide) (by decide)⟩

/-- C6: for every valid leaf identifier, get_center_siti returns
(face, 2i+1, 2j+1) where (face, i, j) is the decode of the identifier. -/
theorem claim_C6 (id : Nat) (hv : is_valid id = true) (hl : is_leaf id = true) :
    get_center_siti id = some ((to_face_ij_orientation id).1,
      2 * (to_face_ij_orientation id).2.1 + 1,
      2 * (to_face_ij_orientation id).2.2.1 + 1) := by
  simp [get_center_siti, hl]

/-- Witness for C6 at id = 5 (an odd identifier the embedded is_valid
accepts). -/
theorem claim_C6_witness :
    (is_valid 5 = true ∧ is_leaf 5 = true) ∧
      get_center_siti 5 = some ((to_face_ij_orientation 5).1,
        2 * (to_face_ij_orientation 5).2.1 + 1,
        2 * (to_face_ij_orientation 5).2.2.1 + 1) :=
  ⟨⟨by decide, by decide⟩, claim_C6 5 (by decide) (by decide)⟩

/-- C7: the claim states get_center_siti is total on valid identifiers,
including valid non-leaf identifiers above 2^31 - 1. The identifier 2^60
(a face 0 cell the embedded is_valid accepts, not a leaf) makes the
source unwrap a failed u64 → i32 conversion: the embedding returns
Option.none (the Rust code panics). -/
theorem claim_C7 :
    is_valid (2 ^ 60) = true ∧ is_leaf (2 ^ 60) = false ∧
      get_center_siti (2 ^ 60) = Option.none := by
  refine ⟨by decide, by decide, by decide⟩

/-- C8: none() is invalid, and sentinel() compares strictly greater than the
identifier produced for any (face, i, j, level) with face < 6 and
level ≤ 30 through the spec-modelled constructor. -/
theorem claim_C8 :
    is_valid none_id = false ∧
      ∀ f i j L, f < 6 → L ≤ 30 →
        from_face_pos_level f (leaf_pos f i j) L < sentinel_id := by
  constructor
  · decide
  · intro f i j L hf hL
    have hQ := posOfIJ_fst_lt 30 (f &&& SWAP_MASK) i j
    rw [show (4:Nat) ^ 30 = 2 ^ 60 from by norm_num] at hQ
    have h1 : leaf_pos f i j < 2 ^ 61 := by
      simp only [leaf_pos]
      omega
    have h2 : leaf_pos f i j / 2 ^ (61 - 2 * L) * 2 ^ (61 - 2 * L) ≤ leaf_pos f i j :=
      Nat.div_mul_le_self _ _
    have h3 : (2:Nat) ^ (60 - 2 * L) ≤ 2 ^ 60 :=
      Nat.pow_le_pow_right (by norm_num) (by omega)
    simp only [from_face_pos_level, sentinel_id]
    omega

/-- Witness for C8 at face 3, i = 7, j = 9, level 4. -/
theorem claim_C8_witness :
    (3 < 6 ∧ 4 ≤ 30) ∧ from_face_pos_level 3 (leaf_pos 3 7 9) 4 < sentinel_id :=
  ⟨⟨by decide, by decide⟩, claim_C8.2 3 7 9 4 (by decide) (by decide)⟩

/-- C9: face_uv_to_xyz aborts (returns Option.none, modelling the panic) for
every face outside [0,6), and returns the fixed linear embedding for every
face in [0,6); there is no silent default. -/
theorem claim_C9 (f : Int) (u v : ℚ) :
    face_uv_to_xyz f u v =
      if 0 ≤ f ∧ f < 6 then some (face_embedding f u v) else Option.none := by
  unfold face_uv_to_xyz face_embedding
  split_ifs <;> first | rfl | (exfalso; omega)

/-- C10: for every identifier, to_face_ij_orientation returns i and j below
2^30 and an orientation below 4, and every index it computes into the
LOOKUP_IJ table is below LOOKUP_TABLE_SIZE = 1024. -/
theorem claim_C10 (id : Nat) :
    (to_face_ij_orientation id).2.1 < 2 ^ 30 ∧
    (to_face_ij_orientation id).2.2.1 < 2 ^ 30 ∧
    (to_face_ij_orientation id).2.2.2 < 4 ∧
    ∀ x ∈ decode_indices id, x < LOOKUP_TABLE_SIZE := by
  have hol : face id % 2 < 4 := by omega
  rw [decode_ij]
  refine ⟨ijOfPos_fst_lt 30 _ _, ijOfPos_snd_lt 30 _ _, ?_, ?_⟩
  · have hbase := ijOfPos_orient_lt 30 (face id % 2) (id / 2 % 4 ^ 30) hol
    show (if lsb id &&& 0x1111111111111110 ≠ 0 then _ ^^^ 1 else _) < 4
    split_ifs
    · exact xor_lt_four hbase (by norm_num)
    · exact hbase
  · rw [show LOOKUP_TABLE_SIZE = 1024 from rfl]
    exact decode_indices_lt id

/-- Two positions sharing their first Lp pairs decode to leaf coordinates
that agree above the low LL bits. -/
theorem ijOfPos_trunc (Lp LL o T R Q : Nat) (hT : T < 4 ^ Lp) (hR : R < 4 ^ LL)
    (hQ : Q < 4 ^ LL) :
    (ijOfPos (Lp + LL) o (T * 4 ^ LL + R)).1 / 2 ^ LL
      = (ijOfPos (Lp + LL) o (T * 4 ^ LL + Q)).1 / 2 ^ LL ∧
    (ijOfPos (Lp + LL) o (T * 4 ^ LL + R)).2.1 / 2 ^ LL
      = (ijOfPos (Lp + LL) o (T * 4 ^ LL + Q)).2.1 / 2 ^ LL := by
  have hAB : (4:Nat) ^ (Lp + LL) = 4 ^ Lp * 4 ^ LL := pow_add 4 Lp LL
  have hball : ∀ X, X < 4 ^ LL → T * 4 ^ LL + X < 4 ^ (Lp + LL) := by
    intro X hX
    rw [hAB]
    have h1 : T * 4 ^ LL ≤ (4 ^ Lp - 1) * 4 ^ LL :=
      mul_le_mul_right' (by omega) _
    have h2 : (4 ^ Lp - 1) * 4 ^ LL = 4 ^ Lp * 4 ^ LL - 4 ^ LL := by
      rw [Nat.sub_mul, one_mul]
    have h3 : (4:Nat) ^ LL ≤ 4 ^ Lp * 4 ^ LL :=
      Nat.le_mul_of_pos_left _ (by positivity)
    omega
  rw [ijOfPos_add Lp LL o _ (hball R hR), ijOfPos_add Lp LL o _ (hball Q hQ),
    block_div (4 ^ LL) T R (by positivity) hR,
    block_div (4 ^ LL) T Q (by positivity) hQ,
    block_mod (4 ^ LL) T R hR, block_mod (4 ^ LL) T Q hQ]
  constructor
  · rw [block_div (2 ^ LL) _ _ (by positivity) (ijOfPos_fst_lt LL _ _),
      block_div (2 ^ LL) _ _ (by positivity) (ijOfPos_fst_lt LL _ _)]
  · rw [block_div (2 ^ LL) _ _ (by positivity) (ijOfPos_snd_lt LL _ _),
      block_div (2 ^ LL) _ _ (by positivity) (ijOfPos_snd_lt LL _ _)]

/-- Witness for C10 at id = 2^60: the first table index computed while
decoding is 32, and it is within bounds. -/
theorem claim_C10_witness :
    (32 ∈ decode_indices (2 ^ 60)) ∧ 32 < LOOKUP_TABLE_SIZE :=
  ⟨by decide, (claim_C10 (2 ^ 60)).2.2.2 32 (by decide)⟩

/-- C4: for every face below 6, grid coordinates i, j below 2^30 and level
at most 30, building the identifier of the cell containing leaf (i, j) at
that level through the spec-modelled (face, curve-position, level)
constructor and decoding it with the source to_face_ij_orientation returns
the original face, and the original (i, j) up to that level's grid
granularity: both truncations to the level agree (an exact round trip at
level 30). -/
theorem claim_C4 (f i j L : Nat) (hf : f < 6) (hi : i < 2 ^ 30) (hj : j < 2 ^ 30)
    (hL : L ≤ 30) :
    (to_face_ij_orientation (from_face_pos_level f (leaf_pos f i j) L)).1 = f ∧
    (to_face_ij_orientation (from_face_pos_level f (leaf_pos f i j) L)).2.1 / 2 ^ (30 - L)
      = i / 2 ^ (30 - L) ∧
    (to_face_ij_orientation (from_face_pos_level f (leaf_pos f i j) L)).2.2.1 / 2 ^ (30 - L)
      = j / 2 ^ (30 - L) := by
  have ho4 : f % 2 < 4 := by omega
  obtain ⟨Q, hQdef⟩ : ∃ q, (posOfIJ 30 (f % 2) i j).1 = q := ⟨_, rfl⟩
  have hlp : leaf_pos f i j = 2 * Q + 1 := by
    simp only [leaf_pos, SWAP_MASK, and_one, hQdef]
  have hQ : Q < 2 ^ 60 := by
    have h := posOfIJ_fst_lt 30 (f % 2) i j
    rw [show (4:Nat) ^ 30 = 2 ^ 60 from by norm_num, hQdef] at h
    exact h
  have hrt := ijOfPos_posOfIJ 30 (f % 2) i j ho4 hi hj
  rw [hQdef] at hrt
  have hrt1 : (ijOfPos 30 (f % 2) Q).1 = i := by rw [hrt]
  have hrt2 : (ijOfPos 30 (f % 2) Q).2.1 = j := by rw [hrt]
  rcases eq_or_lt_of_le hL with hL30 | hL30
  · -- level 30: the round trip is exact
    subst hL30
    have hid : from_face_pos_level f (leaf_pos f i j) 30
        = f * 2 ^ 61 + 2 * Q + 1 := by
      simp only [from_face_pos_level, hlp]
      norm_num
      omega
    have hface : face (f * 2 ^ 61 + 2 * Q + 1) = f := by
      simp only [face, POS_BITS, MAX_LEVEL, Nat.shiftRight_eq_div_pow]
      norm_num
      omega
    have hm : (f * 2 ^ 61 + 2 * Q + 1) / 2 % 4 ^ 30 = Q := by
      rw [show (4:Nat) ^ 30 = 2 ^ 60 from by norm_num]
      omega
    have hdec := decode_ij (f * 2 ^ 61 + 2 * Q + 1)
    rw [hface, hm] at hdec
    rw [hid]
    have hd1 : (to_face_ij_orientation (f * 2 ^ 61 + 2 * Q + 1)).1 = f := by rw [hdec]
    have hd2 : (to_face_ij_orientation (f * 2 ^ 61 + 2 * Q + 1)).2.1
        = (ijOfPos 30 (f % 2) Q).1 := by rw [hdec]
    have hd3 : (to_face_ij_orientation (f * 2 ^ 61 + 2 * Q + 1)).2.2.1
        = (ijOfPos 30 (f % 2) Q).2.1 := by rw [hdec]
    rw [hd1, hd2, hd3, hrt1, hrt2]
    exact ⟨rfl, rfl, rfl⟩
  · -- level below 30
    obtain ⟨LL, hLLd⟩ : ∃ x, (30:Nat) - L = x := ⟨_, rfl⟩
    have hLL1 : 1 ≤ LL := by omega
    have e61 : 61 - 2 * L = 60 - 2 * L + 1 := by omega
    have e60 : 60 - 2 * L = 59 - 2 * L + 1 := by omega
    have hp61 : (2:Nat) ^ (61 - 2 * L) = 2 * 2 ^ (60 - 2 * L) := by
      rw [e61, pow_succ']
    have hp60 : (2:Nat) ^ (60 - 2 * L) = 2 * 2 ^ (59 - 2 * L) := by
      rw [e60, pow_succ']
    have hBpos : 0 < (2:Nat) ^ (59 - 2 * L) := by positivity
    have hpos_trunc : (2 * Q + 1) / 2 ^ (61 - 2 * L) = Q / 2 ^ (60 - 2 * L) := by
      rw [e61, pow_succ', ← Nat.div_div_eq_div_mul,
        show (2 * Q + 1) / 2 = Q from by omega]
    have hT : Q / 2 ^ (60 - 2 * L) < 2 ^ (2 * L) := by
      rw [Nat.div_lt_iff_lt_mul (by positivity), ← pow_add,
        show 2 * L + (60 - 2 * L) = 60 from by omega]
      exact hQ
    have hidv : from_face_pos_level f (leaf_pos f i j) L
        = f * 2 ^ 61 + Q / 2 ^ (60 - 2 * L) * 2 ^ (61 - 2 * L) + 2 ^ (60 - 2 * L) := by
      simp only [from_face_pos_level, hlp, hpos_trunc]
    have hmulb : Q / 2 ^ (60 - 2 * L) * 2 ^ (61 - 2 * L) ≤ 2 ^ 61 - 2 ^ (61 - 2 * L) := by
      have h5 : Q / 2 ^ (60 - 2 * L) * 2 ^ (61 - 2 * L)
          ≤ (2 ^ (2 * L) - 1) * 2 ^ (61 - 2 * L) := mul_le_mul_right' (by omega) _
      have h6 : ((2:Nat) ^ (2 * L) - 1) * 2 ^ (61 - 2 * L) = 2 ^ 61 - 2 ^ (61 - 2 * L) := by
        rw [Nat.sub_mul, one_mul, ← pow_add, show 2 * L + (61 - 2 * L) = 61 from by omega]
      omega
    have hple : (2:Nat) ^ (60 - 2 * L) ≤ 2 ^ 60 :=
      Nat.pow_le_pow_right (by norm_num) (by omega)
    have hface : face (f * 2 ^ 61 + Q / 2 ^ (60 - 2 * L) * 2 ^ (61 - 2 * L)
        + 2 ^ (60 - 2 * L)) = f := by
      simp only [face, POS_BITS, MAX_LEVEL, Nat.shiftRight_eq_div_pow]
      norm_num
      omega
    have hdiv2 : (f * 2 ^ 61 + Q / 2 ^ (60 - 2 * L) * 2 ^ (61 - 2 * L)
        + 2 ^ (60 - 2 * L)) / 2
        = f * 2 ^ 60 + Q / 2 ^ (60 - 2 * L) * 2 ^ (60 - 2 * L) + 2 ^ (59 - 2 * L) := by
      rw [show f * 2 ^ 61 + Q / 2 ^ (60 - 2 * L) * 2 ^ (61 - 2 * L) + 2 ^ (60 - 2 * L)
          = 2 * (f * 2 ^ 60 + Q / 2 ^ (60 - 2 * L) * 2 ^ (60 - 2 * L) + 2 ^ (59 - 2 * L))
          from by rw [hp61, hp60, show (2:Nat) ^ 61 = 2 * 2 ^ 60 from by norm_num]; ring]
      exact Nat.mul_div_cancel_left _ (by norm_num)
    have hXb : Q / 2 ^ (60 - 2 * L) * 2 ^ (60 - 2 * L) + 2 ^ (59 - 2 * L) < 2 ^ 60 := by
      have h5 : Q / 2 ^ (60 - 2 * L) * 2 ^ (60 - 2 * L)
          ≤ (2 ^ (2 * L) - 1) * 2 ^ (60 - 2 * L) := mul_le_mul_right' (by omega) _
      have h6 : ((2:Nat) ^ (2 * L) - 1) * 2 ^ (60 - 2 * L) = 2 ^ 60 - 2 ^ (60 - 2 * L) := by
        rw [Nat.sub_mul, one_mul, ← pow_add, show 2 * L + (60 - 2 * L) = 60 from by omega]
      omega
    have hmod : (f * 2 ^ 60 + Q / 2 ^ (60 - 2 * L) * 2 ^ (60 - 2 * L)
        + 2 ^ (59 - 2 * L)) % 4 ^ 30
        = Q / 2 ^ (60 - 2 * L) * 2 ^ (60 - 2 * L) + 2 ^ (59 - 2 * L) := by
      rw [show (4:Nat) ^ 30 = 2 ^ 60 from by norm_num]
      omega
    have h4LL : (4:Nat) ^ LL = 2 ^ (60 - 2 * L) := by
      rw [four_pow_eq, show 2 * LL = 60 - 2 * L from by omega]
    have h4L : (4:Nat) ^ L = 2 ^ (2 * L) := four_pow_eq L
    have hMform : Q / 2 ^ (60 - 2 * L) * 2 ^ (60 - 2 * L) + 2 ^ (59 - 2 * L)
        = Q / 4 ^ LL * 4 ^ LL + 2 ^ (59 - 2 * L) := by rw [h4LL]
    have hdec := decode_ij (f * 2 ^ 61 + Q / 2 ^ (60 - 2 * L) * 2 ^ (61 - 2 * L)
      + 2 ^ (60 - 2 * L))
    rw [hface, hdiv2, hmod, hMform] at hdec
    have hT4 : Q / 4 ^ LL < 4 ^ L := by rw [h4LL, h4L]; exact hT
    have hR4 : (2:Nat) ^ (59 - 2 * L) < 4 ^ LL := by rw [h4LL]; omega
    have hQ4 : Q % 4 ^ LL < 4 ^ LL := Nat.mod_lt _ (by positivity)
    have htr := ijOfPos_trunc L LL (f % 2) (Q / 4 ^ LL) (2 ^ (59 - 2 * L)) (Q % 4 ^ LL)
      hT4 hR4 hQ4
    have h30 : (30:Nat) = L + LL := by omega
    have hQr : Q / 4 ^ LL * 4 ^ LL + Q % 4 ^ LL = Q := by
      rw [Nat.mul_comm]
      exact Nat.div_add_mod Q (4 ^ LL)
    have htr1 : (ijOfPos 30 (f % 2) (Q / 4 ^ LL * 4 ^ LL + 2 ^ (59 - 2 * L))).1 / 2 ^ LL
        = i / 2 ^ LL := by
      rw [h30]
      rw [htr.1]
      rw [← h30, hQr, hrt1]
    have htr2 : (ijOfPos 30 (f % 2) (Q / 4 ^ LL * 4 ^ LL + 2 ^ (59 - 2 * L))).2.1 / 2 ^ LL
        = j / 2 ^ LL := by
      rw [h30]
      rw [htr.2]
      rw [← h30, hQr, hrt2]
    rw [hidv, hLLd]
    have hd1 : (to_face_ij_orientation (f * 2 ^ 61 + Q / 2 ^ (60 - 2 * L) * 2 ^ (61 - 2 * L)
        + 2 ^ (60 - 2 * L))).1 = f := by rw [hdec]
    have hd2 : (to_face_ij_orientation (f * 2 ^ 61 + Q / 2 ^ (60 - 2 * L) * 2 ^ (61 - 2 * L)
        + 2 ^ (60 - 2 * L))).2.1
        = (ijOfPos 30 (f % 2) (Q / 4 ^ LL * 4 ^ LL + 2 ^ (59 - 2 * L))).1 := by rw [hdec]
    have hd3 : (to_face_ij_orientation (f * 2 ^ 61 + Q / 2 ^ (60 - 2 * L) * 2 ^ (61 - 2 * L)
        + 2 ^ (60 - 2 * L))).2.2.1
        = (ijOfPos 30 (f % 2) (Q / 4 ^ LL * 4 ^ LL + 2 ^ (59 - 2 * L))).2.1 := by rw [hdec]
    rw [hd1, hd2, hd3, htr1, htr2]
    exact ⟨rfl, rfl, rfl⟩

/-- Witness for C4 at face 2, i = 123456, j = 987654, level 11. -/
theorem claim_C4_witness :
    (2 < 6 ∧ 123456 < 2 ^ 30 ∧ 987654 < 2 ^ 30 ∧ 11 ≤ 30) ∧
      ((to_face_ij_orientation (from_face_pos_level 2 (leaf_pos 2 123456 987654) 11)).1 = 2 ∧
       (to_face_ij_orientation
          (from_face_pos_level 2 (leaf_pos 2 123456 987654) 11)).2.1 / 2 ^ (30 - 11)
         = 123456 / 2 ^ (30 - 11) ∧
       (to_face_ij_orientation
          (from_face_pos_level 2 (leaf_pos 2 123456 987654) 11)).2.2.1 / 2 ^ (30 - 11)
         = 987654 / 2 ^ (30 - 11)) :=
  ⟨⟨by decide, by norm_num, by norm_num, by decide⟩,
    claim_C4 2 123456 987654 11 (by decide) (by norm_num) (by norm_num) (by decide)⟩

end S2
